import Mathlib

/-!
Verification of the soloman compiler (src/src/main.rs): a shallow
embedding of its lexer, recursive-descent parser and assembly-text
code generator, together with theorems checking the specification's
claims against the embedded code.

Conventions of the embedding:
* Rust `i64` values are modelled as `Int`; the overflow check of
  `str::parse::<i64>` is explicit (`parse_i64`).
* Rust panics are modelled as `Except.error` with the panic message;
  `Except` propagation mirrors the fact that a panic aborts the run.
* Loops (`skip_whitespace`, the digit scan, the parser loops) are
  modelled with an explicit fuel argument so that every definition is
  structurally recursive and evaluates by kernel reduction; the fuel
  given at top level is always sufficient for the inputs considered.
-/

-- ======================
-- TOKEN (src/src/main.rs, enum Token)
-- ======================

inductive Token where
  | Int (n : Int)
  | Plus
  | Minus
  | Mul
  | Div
  | LParen
  | RParen
  | Print
  | Semi
  | EOF
deriving DecidableEq, Repr

/-- Model of `std::mem::discriminant` on `Token`: the constructor tag,
with the `Int` payload ignored. -/
def Token.kind : Token → Nat
  | .Int _ => 0
  | .Plus => 1
  | .Minus => 2
  | .Mul => 3
  | .Div => 4
  | .LParen => 5
  | .RParen => 6
  | .Print => 7
  | .Semi => 8
  | .EOF => 9

-- ======================
-- LEXER (src/src/main.rs, struct Lexer)
-- ======================

structure Lexer where
  input : List Char
  pos : Nat
deriving DecidableEq, Repr

def Lexer.new (input : String) : Lexer :=
  { input := input.data, pos := 0 }

def Lexer.current (l : Lexer) : Option Char :=
  l.input[l.pos]?

def Lexer.advance (l : Lexer) : Lexer :=
  { l with pos := l.pos + 1 }

/-- The `while` loop of `Lexer::skip_whitespace`, with fuel: advances
`pos` while the current character is whitespace. -/
def skipWsAux : List Char → Nat → Nat → Nat
  | _, pos, 0 => pos
  | input, pos, fuel+1 =>
    match input[pos]? with
    | some c => if c.isWhitespace then skipWsAux input (pos + 1) fuel else pos
    | none => pos

def Lexer.skip_whitespace (l : Lexer) : Lexer :=
  { l with pos := skipWsAux l.input l.pos (l.input.length - l.pos) }

/-- The `while` loop of `Lexer::integer`, with fuel: advances `pos`
over the maximal run of ASCII digits. -/
def scanDigitsAux : List Char → Nat → Nat → Nat
  | _, pos, 0 => pos
  | input, pos, fuel+1 =>
    match input[pos]? with
    | some c => if c.isDigit then scanDigitsAux input (pos + 1) fuel else pos
    | none => pos

/-- Numeric value of a digit string, most significant digit first. -/
def digitsVal (cs : List Char) : Nat :=
  cs.foldl (fun a c => 10 * a + (c.toNat - '0'.toNat)) 0

/-- Largest `i64` value, `2^63 - 1`. -/
def maxI64 : Nat := 2 ^ 63 - 1

/-- Model of `str::parse::<i64>()` restricted to unsigned digit strings
(the only shape the lexer ever passes it): succeeds exactly on a
nonempty all-digit string whose value fits in an `i64`. -/
def parse_i64 (cs : List Char) : Option Int :=
  if cs ≠ [] ∧ cs.all Char.isDigit ∧ digitsVal cs ≤ maxI64 then
    some (digitsVal cs)
  else
    none

/-- Embeds `Lexer::integer`: scan the maximal digit run starting at `pos`,
slice it out of the input and convert it; the `.unwrap()` panic on a
failed conversion becomes `Except.error`. -/
def Lexer.integer (l : Lexer) : Except String (Int × Lexer) :=
  let start := l.pos
  let stop := scanDigitsAux l.input l.pos (l.input.length - l.pos)
  match parse_i64 ((l.input.drop start).take (stop - start)) with
  | some v => .ok (v, { l with pos := stop })
  | none => .error "called Option::unwrap on a None value"

/-- Embeds `Lexer::next_token`: skip whitespace, then dispatch on the current
character exactly as the Rust `match` does.  The `p` branch models
`remaining.starts_with("print")` as a five-character comparison. -/
def Lexer.next_token (l : Lexer) : Except String (Token × Lexer) :=
  let l1 := l.skip_whitespace
  match l1.current with
  | some c =>
    if c.isDigit then
      (l1.integer).map (fun p => (Token.Int p.1, p.2))
    else if c = '+' then .ok (Token.Plus, l1.advance)
    else if c = '-' then .ok (Token.Minus, l1.advance)
    else if c = '*' then .ok (Token.Mul, l1.advance)
    else if c = '/' then .ok (Token.Div, l1.advance)
    else if c = '(' then .ok (Token.LParen, l1.advance)
    else if c = ')' then .ok (Token.RParen, l1.advance)
    else if c = ';' then .ok (Token.Semi, l1.advance)
    else if c = 'p' then
      if (l1.input.drop l1.pos).take 5 = ['p', 'r', 'i', 'n', 't'] then
        .ok (Token.Print, { l1 with pos := l1.pos + 5 })
      else
        .error "Unexpected token"
    else
      .error "Invalid character"
  | none => .ok (Token.EOF, l1)

-- ======================
-- AST (src/src/main.rs, enum Expr / enum Stmt / struct Program)
-- ======================

inductive Expr where
  | Num (n : Int)
  | BinOp (left : Expr) (op : Token) (right : Expr)
deriving DecidableEq, Repr

inductive Stmt where
  | Print (e : Expr)
deriving DecidableEq, Repr

structure Program where
  stmts : List Stmt
deriving DecidableEq, Repr

-- ======================
-- PARSER (src/src/main.rs, struct Parser)
-- ======================

structure ParserSt where
  lexer : Lexer
  current : Token
deriving DecidableEq, Repr

/-- Embeds `Parser::new`: pull the first token from the lexer. -/
def Parser.new (lexer : Lexer) : Except String ParserSt :=
  (lexer.next_token).map (fun p => { lexer := p.2, current := p.1 })

/-- Embeds `Parser::eat`: compare discriminants (payload ignored); on a match
pull the next token, otherwise fail with the panic message. -/
def Parser.eat (st : ParserSt) (expected : Token) : Except String ParserSt :=
  if st.current.kind = expected.kind then
    (st.lexer.next_token).map (fun p => { lexer := p.2, current := p.1 })
  else
    .error "Unexpected token"

mutual

/-- Embeds `Parser::factor`: integer literal or parenthesised expression. -/
def Parser.factor : Nat → ParserSt → Except String (Expr × ParserSt)
  | 0, _ => .error "out of fuel"
  | fuel+1, st =>
    match st.current with
    | Token.Int n => do
      let st ← Parser.eat st (Token.Int 0)
      .ok (Expr.Num n, st)
    | Token.LParen => do
      let st ← Parser.eat st Token.LParen
      let (e, st) ← Parser.expr fuel st
      let st ← Parser.eat st Token.RParen
      .ok (e, st)
    | _ => .error "Expected number"

/-- Embeds `Parser::term`: a factor followed by the `*`/`/` fold loop. -/
def Parser.term : Nat → ParserSt → Except String (Expr × ParserSt)
  | 0, _ => .error "out of fuel"
  | fuel+1, st => do
    let (node, st) ← Parser.factor fuel st
    Parser.termLoop fuel node st

/-- The `loop` inside `Parser::term`, folding `*`/`/` left-to-right. -/
def Parser.termLoop : Nat → Expr → ParserSt → Except String (Expr × ParserSt)
  | 0, _, _ => .error "out of fuel"
  | fuel+1, node, st =>
    match st.current with
    | Token.Mul => do
      let st ← Parser.eat st Token.Mul
      let (rhs, st) ← Parser.factor fuel st
      Parser.termLoop fuel (Expr.BinOp node Token.Mul rhs) st
    | Token.Div => do
      let st ← Parser.eat st Token.Div
      let (rhs, st) ← Parser.factor fuel st
      Parser.termLoop fuel (Expr.BinOp node Token.Div rhs) st
    | _ => .ok (node, st)

/-- Embeds `Parser::expr`: a term followed by the `+`/`-` fold loop. -/
def Parser.expr : Nat → ParserSt → Except String (Expr × ParserSt)
  | 0, _ => .error "out of fuel"
  | fuel+1, st => do
    let (node, st) ← Parser.term fuel st
    Parser.exprLoop fuel node st

/-- The `loop` inside `Parser::expr`, folding `+`/`-` left-to-right. -/
def Parser.exprLoop : Nat → Expr → ParserSt → Except String (Expr × ParserSt)
  | 0, _, _ => .error "out of fuel"
  | fuel+1, node, st =>
    match st.current with
    | Token.Plus => do
      let st ← Parser.eat st Token.Plus
      let (rhs, st) ← Parser.term fuel st
      Parser.exprLoop fuel (Expr.BinOp node Token.Plus rhs) st
    | Token.Minus => do
      let st ← Parser.eat st Token.Minus
      let (rhs, st) ← Parser.term fuel st
      Parser.exprLoop fuel (Expr.BinOp node Token.Minus rhs) st
    | _ => .ok (node, st)

end

/-- Embeds `Parser::statement`: `print` expr `;`. -/
def Parser.statement (fuel : Nat) (st : ParserSt) : Except String (Stmt × ParserSt) := do
  let st ← Parser.eat st Token.Print
  let (e, st) ← Parser.expr fuel st
  let st ← Parser.eat st Token.Semi
  .ok (Stmt.Print e, st)

/-- Embeds `Parser::program`: the `while current != EOF` statement loop. -/
def Parser.program : Nat → ParserSt → Except String (Program × ParserSt)
  | 0, _ => .error "out of fuel"
  | fuel+1, st =>
    if st.current = Token.EOF then
      .ok ({ stmts := [] }, st)
    else do
      let (s, st) ← Parser.statement fuel st
      let (rest, st) ← Parser.program fuel st
      .ok ({ stmts := s :: rest.stmts }, st)

/-- The front end of `main`: lex and parse a source string.  The fuel
`source.length + 10` dominates the recursion depth of the parser on
every input the theorems below use. -/
def parse_program (source : String) : Except String Program := do
  let st ← Parser.new (Lexer.new source)
  let (prog, _) ← Parser.program (source.length + 10) st
  .ok prog

-- ======================
-- CODEGEN (src/src/main.rs, struct CodeGen)
-- ======================

/-- Embeds `CodeGen::gen_expr`, with the output modelled as the list of lines
passed to `emit` (in order). -/
def CodeGen.gen_expr : Expr → List String
  | Expr.Num n => ["    mov rax, " ++ toString n]
  | Expr.BinOp left op right =>
    CodeGen.gen_expr left ++ ["    push rax"] ++
    CodeGen.gen_expr right ++ ["    pop rbx"] ++
    (match op with
     | Token.Plus => ["    add rax, rbx"]
     | Token.Minus => ["    sub rbx, rax", "    mov rax, rbx"]
     | Token.Mul => ["    imul rax, rbx"]
     | Token.Div => ["    mov rdx, 0", "    mov rcx, rax",
                     "    mov rax, rbx", "    idiv rcx"]
     | _ => [])

/-- Embeds `CodeGen::gen_stmt`. -/
def CodeGen.gen_stmt : Stmt → List String
  | Stmt.Print e =>
    CodeGen.gen_expr e ++ ["    mov rdi, rax", "    call print_int"]

/-- Embeds `CodeGen::generate`: fixed preamble (`print_int` routine), the
per-statement code, the exit epilogue and the data directives. -/
def CodeGen.generate (p : Program) : List String :=
  ["global _start", "section .text",
   "print_int:",
   "    mov rcx, buffer+20", "    mov rbx, 10", "    mov rax, rdi",
   "convert:",
   "    xor rdx, rdx", "    div rbx", "    add dl, '0'", "    dec rcx",
   "    mov [rcx], dl", "    test rax, rax", "    jnz convert",
   "    mov rax, 1", "    mov rdi, 1", "    mov rsi, rcx",
   "    mov rdx, buffer+20", "    sub rdx, rcx", "    syscall",
   "    mov rax, 1", "    mov rdi, 1", "    mov rsi, newline",
   "    mov rdx, 1", "    syscall",
   "    ret",
   "_start:"] ++
  (p.stmts.map CodeGen.gen_stmt).flatten ++
  ["    mov rax, 60", "    xor rdi, rdi", "    syscall",
   "section .bss", "buffer resb 21",
   "section .data", "newline db 10"]

/-- Each call of `CodeGen::emit` appends each line plus a newline to the output
string; rendering the line list reproduces the final output. -/
def renderLines (lines : List String) : String :=
  String.join (lines.map (fun s => s ++ "\x0a"))

/-- The whole run of `main` after reading the file: `out.asm` contents
on success, `Except.error` when any stage panics.  `fs::write` happens
strictly after parsing and generation succeed. -/
def compile (source : String) : Except String String :=
  (parse_program source).map (fun prog => renderLines (CodeGen.generate prog))

/-- The file written by `main`, if any: a panic anywhere in the
pipeline means no `out.asm` is produced. -/
def main_output (source : String) : Option String :=
  (compile source).toOption

-- ======================
-- MACHINE MODEL for the emitted code
-- ======================

/-- Modelled from the spec: the instructions `gen_expr` can emit, as an
inductive alphabet (the assembler and CPU that give the emitted text
its meaning are external collaborators of the repository). -/
inductive Instr where
  | movRaxImm (n : Int)
  | pushRax
  | popRbx
  | addRaxRbx
  | subRbxRax
  | movRaxRbx
  | imulRaxRbx
  | movRdxZero
  | movRcxRax
  | idivRcx
deriving DecidableEq, Repr

/-- The exact line of assembly text `gen_expr` emits for each
instruction. -/
def instrLine : Instr → String
  | .movRaxImm n => "    mov rax, " ++ toString n
  | .pushRax => "    push rax"
  | .popRbx => "    pop rbx"
  | .addRaxRbx => "    add rax, rbx"
  | .subRbxRax => "    sub rbx, rax"
  | .movRaxRbx => "    mov rax, rbx"
  | .imulRaxRbx => "    imul rax, rbx"
  | .movRdxZero => "    mov rdx, 0"
  | .movRcxRax => "    mov rcx, rax"
  | .idivRcx => "    idiv rcx"

/-- Embeds `CodeGen::gen_expr` at the instruction level: same shape as
`CodeGen.gen_expr`, emitting `Instr` instead of text. -/
def genCode : Expr → List Instr
  | Expr.Num n => [Instr.movRaxImm n]
  | Expr.BinOp left op right =>
    genCode left ++ [Instr.pushRax] ++
    genCode right ++ [Instr.popRbx] ++
    (match op with
     | Token.Plus => [Instr.addRaxRbx]
     | Token.Minus => [Instr.subRbxRax, Instr.movRaxRbx]
     | Token.Mul => [Instr.imulRaxRbx]
     | Token.Div => [Instr.movRdxZero, Instr.movRcxRax,
                     Instr.movRaxRbx, Instr.idivRcx]
     | _ => [])

/-- Modelled from the spec: machine state for executing the emitted
instructions — the accumulator `rax`, the scratch registers and the
stack, with exact integer contents. -/
structure Mach where
  rax : Int
  rbx : Int
  rcx : Int
  rdx : Int
  stack : List Int
deriving DecidableEq, Repr

/-- Modelled from the spec: the effect of one emitted instruction
(section 4.4's lowering table read as operational semantics); `pop` on
an empty stack and division by zero are undefined (`none`). -/
def execInstr : Instr → Mach → Option Mach
  | .movRaxImm n, m => some { m with rax := n }
  | .pushRax, m => some { m with stack := m.rax :: m.stack }
  | .popRbx, m =>
    match m.stack with
    | [] => none
    | v :: s => some { m with rbx := v, stack := s }
  | .addRaxRbx, m => some { m with rax := m.rax + m.rbx }
  | .subRbxRax, m => some { m with rbx := m.rbx - m.rax }
  | .movRaxRbx, m => some { m with rax := m.rbx }
  | .imulRaxRbx, m => some { m with rax := m.rax * m.rbx }
  | .movRdxZero, m => some { m with rdx := 0 }
  | .movRcxRax, m => some { m with rcx := m.rax }
  | .idivRcx, m =>
    if m.rcx = 0 then none
    else some { m with rax := Int.tdiv m.rax m.rcx, rdx := Int.tmod m.rax m.rcx }

/-- Run a list of instructions in order; any undefined step poisons
the whole run. -/
def execList : List Instr → Mach → Option Mach
  | [], m => some m
  | i :: is, m => (execInstr i m).bind (execList is)

/-- Modelled from the spec: the arithmetic meaning of an expression
tree (the repository has no evaluator — the spec's "evaluates to"
statements fix this semantics).  Division is the `i64` truncating
division; division by zero and a `BinOp` whose tag is not one of the
four operators have no value. -/
def evalExpr : Expr → Option Int
  | Expr.Num n => some n
  | Expr.BinOp l op r =>
    match evalExpr l, evalExpr r with
    | some vl, some vr =>
      match op with
      | Token.Plus => some (vl + vr)
      | Token.Minus => some (vl - vr)
      | Token.Mul => some (vl * vr)
      | Token.Div => if vr = 0 then none else some (Int.tdiv vl vr)
      | _ => none
    | _, _ => none

/-- Number of internal (`BinOp`) nodes of an expression. -/
def Expr.numBinOps : Expr → Nat
  | Expr.Num _ => 0
  | Expr.BinOp l _ r => l.numBinOps + r.numBinOps + 1

/-- Stack-depth tracking over emitted text lines: `push rax` deepens,
`pop rbx` shallows and is undefined at depth zero, anything else is
neutral. -/
def stackDepth : List String → Nat → Option Nat
  | [], d => some d
  | s :: rest, d =>
    if s = "    push rax" then stackDepth rest (d + 1)
    else if s = "    pop rbx" then
      match d with
      | 0 => none
      | d' + 1 => stackDepth rest d'
    else stackDepth rest d

-- ======================
-- HELPER LEMMAS
-- ======================

theorem gen_expr_eq_map (e : Expr) :
    CodeGen.gen_expr e = (genCode e).map instrLine := by
  induction e with
  | Num n => simp [CodeGen.gen_expr, genCode, instrLine]
  | BinOp l op r ihl ihr =>
    cases op <;>
      simp [CodeGen.gen_expr, genCode, instrLine, ihl, ihr]

theorem execList_append (xs ys : List Instr) (m : Mach) :
    execList (xs ++ ys) m = (execList xs m).bind (execList ys) := by
  induction xs generalizing m with
  | nil => simp [execList]
  | cons i is ih =>
    simp only [List.cons_append, execList]
    cases execInstr i m with
    | none => simp
    | some m' => simp [ih]

theorem exec_spine (l r : Expr) (tail : List Instr) (m m1 m3 : Mach)
    (w : Int) (s : List Int)
    (e1 : execList (genCode l) m = some m1)
    (e3 : execList (genCode r) { m1 with stack := m1.rax :: m1.stack } = some m3)
    (hs : m3.stack = w :: s) :
    execList (genCode l ++ [Instr.pushRax] ++ genCode r ++ [Instr.popRbx] ++ tail) m
      = execList tail { m3 with rbx := w, stack := s } := by
  simp only [execList_append, e1, Option.some_bind]
  simp only [execList, execInstr, Option.some_bind, e3, hs]

theorem exec_gen_correct (e : Expr) : ∀ (m : Mach) (v : Int),
    evalExpr e = some v →
    ∃ m' : Mach, execList (genCode e) m = some m' ∧ m'.rax = v ∧ m'.stack = m.stack := by
  induction e with
  | Num n =>
    intro m v h
    simp only [evalExpr, Option.some.injEq] at h
    exact ⟨{ m with rax := n }, by simp [genCode, execList, execInstr], h, rfl⟩
  | BinOp l op r ihl ihr =>
    intro m v h
    simp only [evalExpr] at h
    cases hl : evalExpr l with
    | none => rw [hl] at h; simp at h
    | some vl =>
    cases hr : evalExpr r with
    | none => rw [hl, hr] at h; simp at h
    | some vr =>
    rw [hl, hr] at h
    obtain ⟨m1, e1, hrax1, hstk1⟩ := ihl m vl hl
    obtain ⟨m3, e3, hrax3, hstk3⟩ := ihr { m1 with stack := m1.rax :: m1.stack } vr hr
    have hs : m3.stack = vl :: m.stack := by
      rw [hstk3]; simp [hrax1, hstk1]
    cases op with
    | Int _ => simp at h
    | LParen => simp at h
    | RParen => simp at h
    | Print => simp at h
    | Semi => simp at h
    | EOF => simp at h
    | Plus =>
      simp at h
      refine ⟨{ m3 with rax := m3.rax + vl, rbx := vl, stack := m.stack }, ?_, ?_, rfl⟩
      · rw [genCode, exec_spine l r _ m m1 m3 vl m.stack e1 e3 hs]
        simp [execList, execInstr]
      · simp [hrax3, ← h, Int.add_comm]
    | Minus =>
      simp at h
      refine ⟨{ m3 with rax := vl - m3.rax, rbx := vl - m3.rax, stack := m.stack }, ?_, ?_, rfl⟩
      · rw [genCode, exec_spine l r _ m m1 m3 vl m.stack e1 e3 hs]
        simp [execList, execInstr]
      · simp [hrax3, ← h]
    | Mul =>
      simp at h
      refine ⟨{ m3 with rax := m3.rax * vl, rbx := vl, stack := m.stack }, ?_, ?_, rfl⟩
      · rw [genCode, exec_spine l r _ m m1 m3 vl m.stack e1 e3 hs]
        simp [execList, execInstr]
      · simp [hrax3, ← h, Int.mul_comm]
    | Div =>
      by_cases hvr : vr = 0
      · rw [hvr] at h; simp at h
      · simp only [hvr, if_false, ite_false] at h
        simp [hvr] at h
        refine ⟨{ m3 with rax := Int.tdiv vl m3.rax, rbx := vl, rcx := m3.rax, rdx := Int.tmod vl m3.rax, stack := m.stack }, ?_, ?_, rfl⟩
        · rw [genCode, exec_spine l r _ m m1 m3 vl m.stack e1 e3 hs]
          have hnz : ¬ m3.rax = 0 := by rw [hrax3]; exact hvr
          simp [execList, execInstr, hnz]
        · simp [hrax3, ← h]

theorem take_takeWhile_length (p : Char → Bool) (l : List Char) :
    l.take (l.takeWhile p).length = l.takeWhile p := by
  induction l with
  | nil => simp
  | cons a l ih =>
    by_cases h : p a
    · simp [List.takeWhile_cons, h, ih]
    · simp [List.takeWhile_cons, h]

theorem all_takeWhile_true (p : Char → Bool) (l : List Char) :
    (l.takeWhile p).all p = true := by
  induction l with
  | nil => simp
  | cons a l ih =>
    by_cases h : p a
    · simp [List.takeWhile_cons, h, ih]
    · simp [List.takeWhile_cons, h]

theorem scanDigitsAux_spec (input : List Char) : ∀ fuel pos, input.length - pos ≤ fuel →
    scanDigitsAux input pos fuel = pos + ((input.drop pos).takeWhile Char.isDigit).length := by
  intro fuel
  induction fuel with
  | zero =>
    intro pos hf
    have hle : input.length ≤ pos := by omega
    simp [scanDigitsAux, List.drop_eq_nil_of_le hle]
  | succ fuel ih =>
    intro pos hf
    cases hpos : input[pos]? with
    | none =>
      have hle : input.length ≤ pos := by
        by_contra hc
        push_neg at hc
        simp [List.getElem?_eq_getElem hc] at hpos
      simp [scanDigitsAux, hpos, List.drop_eq_nil_of_le hle]
    | some c =>
      have hlt : pos < input.length := by
        by_contra hc
        push_neg at hc
        simp [List.getElem?_eq_none_iff.mpr hc] at hpos
      have hdrop : input.drop pos = c :: input.drop (pos + 1) := by
        rw [List.drop_eq_getElem_cons hlt]
        simp [List.getElem?_eq_getElem hlt] at hpos
        rw [hpos]
      by_cases hc : c.isDigit
      · rw [scanDigitsAux, hpos]
        simp only [hc, if_true, ite_true]
        rw [ih (pos + 1) (by omega), hdrop]
        simp [List.takeWhile_cons, hc]
        omega
      · rw [scanDigitsAux, hpos]
        simp only [hc, if_false, ite_false]
        rw [hdrop]
        simp [List.takeWhile_cons, hc]

theorem mov_line_ne (t : String) (s : String) (h4 : s.data[4]? ≠ some 'm') :
    "    mov rax, " ++ t ≠ s := by
  intro h
  apply h4
  rw [← h, String.data_append]
  rfl

theorem mov_line_ne_push (t : String) : "    mov rax, " ++ t ≠ "    push rax" :=
  mov_line_ne t _ (by decide)

theorem mov_line_ne_pop (t : String) : "    mov rax, " ++ t ≠ "    pop rbx" :=
  mov_line_ne t _ (by decide)

theorem stackDepth_append (xs ys : List String) (d : Nat) :
    stackDepth (xs ++ ys) d = (stackDepth xs d).bind (fun d2 => stackDepth ys d2) := by
  induction xs generalizing d with
  | nil => simp [stackDepth]
  | cons s rest ih =>
    simp only [List.cons_append, stackDepth]
    by_cases h1 : s = "    push rax"
    · simp [h1, ih]
    · by_cases h2 : s = "    pop rbx"
      · simp only [h1, h2, if_true, if_false, ite_true, ite_false]
        cases d with
        | zero => simp
        | succ d2 => simp [ih]
      · simp [h1, h2, ih]

theorem stackDepth_gen_expr (e : Expr) : ∀ d, stackDepth (CodeGen.gen_expr e) d = some d := by
  induction e with
  | Num n =>
    intro d
    simp [CodeGen.gen_expr, stackDepth, mov_line_ne_push (toString n), mov_line_ne_pop (toString n)]
  | BinOp l op r ihl ihr =>
    intro d
    simp only [CodeGen.gen_expr, stackDepth_append, ihl, Option.some_bind]
    rw [show stackDepth ["    push rax"] d = some (d + 1) from by simp [stackDepth]]
    simp only [Option.some_bind, ihr]
    rw [show stackDepth ["    pop rbx"] (d + 1) = some d from by simp [stackDepth]]
    simp only [Option.some_bind]
    cases op <;> simp [stackDepth]

theorem count_gen_expr_push (e : Expr) :
    (CodeGen.gen_expr e).count "    push rax" = e.numBinOps := by
  induction e with
  | Num n =>
    simp [CodeGen.gen_expr, Expr.numBinOps, List.count_cons, List.count_nil]
    exact fun h => absurd h (mov_line_ne_push (toString n))
  | BinOp l op r ihl ihr =>
    simp only [CodeGen.gen_expr, List.count_append, ihl, ihr, Expr.numBinOps]
    cases op <;> simp [List.count_cons] <;> omega

theorem count_gen_expr_pop (e : Expr) :
    (CodeGen.gen_expr e).count "    pop rbx" = e.numBinOps := by
  induction e with
  | Num n =>
    simp [CodeGen.gen_expr, Expr.numBinOps, List.count_cons, List.count_nil]
    exact fun h => absurd h (mov_line_ne_pop (toString n))
  | BinOp l op r ihl ihr =>
    simp only [CodeGen.gen_expr, List.count_append, ihl, ihr, Expr.numBinOps]
    cases op <;> simp [List.count_cons] <;> omega

theorem drop_cons_of_getElem (input : List Char) (pos : Nat) (c : Char)
    (h : input[pos]? = some c) :
    input.drop pos = c :: input.drop (pos + 1) := by
  have hlt : pos < input.length := by
    by_contra hc2
    push_neg at hc2
    simp [List.getElem?_eq_none_iff.mpr hc2] at h
  rw [List.drop_eq_getElem_cons hlt]
  simp [List.getElem?_eq_getElem hlt] at h
  rw [h]

-- ======================
-- CLAIM THEOREMS
-- ======================

/-- C1: the parser gives `*`/`/` higher precedence than `+`/`-` and
folds same-precedence operators left-associatively: `"print (1+2)*3;"`
parses to `Mul(Add(1,2),3)`, which evaluates to `9`, and
`"print 2+3*4;"` parses to `Add(2, Mul(3,4))` — not `Mul(Add(2,3),4)`
— which evaluates to `14`. -/
theorem claim_C1_precedence :
    parse_program "print (1+2)*3;" =
      .ok { stmts := [Stmt.Print (Expr.BinOp
        (Expr.BinOp (Expr.Num 1) Token.Plus (Expr.Num 2)) Token.Mul (Expr.Num 3))] } ∧
    evalExpr (Expr.BinOp
        (Expr.BinOp (Expr.Num 1) Token.Plus (Expr.Num 2)) Token.Mul (Expr.Num 3)) = some 9 ∧
    parse_program "print 2+3*4;" =
      .ok { stmts := [Stmt.Print (Expr.BinOp
        (Expr.Num 2) Token.Plus (Expr.BinOp (Expr.Num 3) Token.Mul (Expr.Num 4)))] } ∧
    evalExpr (Expr.BinOp
        (Expr.Num 2) Token.Plus (Expr.BinOp (Expr.Num 3) Token.Mul (Expr.Num 4))) = some 14 :=
  ⟨rfl, rfl, rfl, rfl⟩

/-- C2: parsing `"print 2+3;"` produces a program with exactly one
statement, `Print(Add(Num(2), Num(3)))`. -/
theorem claim_C2_parse_roundtrip :
    parse_program "print 2+3;" =
      .ok { stmts := [Stmt.Print (Expr.BinOp (Expr.Num 2) Token.Plus (Expr.Num 3))] } :=
  rfl

/-- C5: on a statement missing its semicolon, an unrecognized
character, or an out-of-range integer literal, the run aborts before
any output is produced — `main_output` (the contents of `out.asm`, if
written) is `none`, and in general any parse error means no output
file. -/
theorem claim_C5_no_output_on_error :
    main_output "print 2+3" = none ∧
    main_output "print 2?3;" = none ∧
    main_output "print 9223372036854775808;" = none ∧
    (∀ (s e : String), parse_program s = .error e → main_output s = none) := by
  refine ⟨rfl, rfl, rfl, ?_⟩
  intro s e h
  simp [main_output, compile, h, Except.map, Except.toOption]

theorem claim_C5_witness : main_output "print 2+3" = none :=
  claim_C5_no_output_on_error.2.2.2 "print 2+3" "Unexpected token" rfl

/-- C7: `eat(expected)` advances (pulling the next token) exactly when
the current token's discriminant equals the expected token's, with the
`Int` payload ignored; on a mismatch it returns the fatal "Unexpected
token" error and yields no successor state. -/
theorem claim_C7_eat_discriminant (st : ParserSt) (expected : Token) :
    (st.current.kind = expected.kind →
      Parser.eat st expected =
        (st.lexer.next_token).map (fun p => { lexer := p.2, current := p.1 })) ∧
    (st.current.kind ≠ expected.kind →
      Parser.eat st expected = .error "Unexpected token") ∧
    (∀ n1 n2 : Int, (Token.Int n1).kind = (Token.Int n2).kind) := by
  refine ⟨?_, ?_, ?_⟩
  · intro h
    simp [Parser.eat, h]
  · intro h
    simp [Parser.eat, h]
  · intro n1 n2
    rfl

theorem claim_C7_witness :
    Parser.eat ⟨Lexer.new "", Token.Int 7⟩ (Token.Int 0) = .ok ⟨⟨[], 0⟩, Token.EOF⟩ ∧
    Parser.eat ⟨Lexer.new "", Token.Plus⟩ Token.Semi = .error "Unexpected token" :=
  ⟨((claim_C7_eat_discriminant ⟨Lexer.new "", Token.Int 7⟩ (Token.Int 0)).1 rfl).trans rfl,
   (claim_C7_eat_discriminant ⟨Lexer.new "", Token.Plus⟩ Token.Semi).2.1 (by decide)⟩

/-- C3: for every subtraction node the generator emits the left
operand's code, `push rax`, the right operand's code, `pop rbx`, then
`sub rbx, rax` and `mov rax, rbx` — and the whole sequence computes
left − right (the pop order corrects the stack's reversal of the
operands). -/
theorem claim_C3_sub_operand_order (l r : Expr) (vl vr : Int) (m : Mach)
    (hl : evalExpr l = some vl) (hr : evalExpr r = some vr) :
    CodeGen.gen_expr (Expr.BinOp l Token.Minus r) =
      CodeGen.gen_expr l ++ ["    push rax"] ++ CodeGen.gen_expr r ++
        ["    pop rbx", "    sub rbx, rax", "    mov rax, rbx"] ∧
    ∃ m' : Mach, execList (genCode (Expr.BinOp l Token.Minus r)) m = some m' ∧
      m'.rax = vl - vr ∧ m'.stack = m.stack := by
  constructor
  · simp [CodeGen.gen_expr]
  · apply exec_gen_correct
    simp [evalExpr, hl, hr]

theorem claim_C3_witness :
    CodeGen.gen_expr (Expr.BinOp (Expr.Num 5) Token.Minus (Expr.Num 3)) =
      CodeGen.gen_expr (Expr.Num 5) ++ ["    push rax"] ++ CodeGen.gen_expr (Expr.Num 3) ++
        ["    pop rbx", "    sub rbx, rax", "    mov rax, rbx"] ∧
    ∃ m' : Mach, execList (genCode (Expr.BinOp (Expr.Num 5) Token.Minus (Expr.Num 3)))
        ⟨0, 0, 0, 0, []⟩ = some m' ∧ m'.rax = 5 - 3 ∧ m'.stack = [] :=
  claim_C3_sub_operand_order (Expr.Num 5) (Expr.Num 3) 5 3 ⟨0, 0, 0, 0, []⟩ rfl rfl

/-- C4: for every division node the emitted sequence is `pop rbx`,
`mov rdx, 0`, `mov rcx, rax`, `mov rax, rbx`, `idiv rcx` after the
operands — dividend = popped left value, divisor = accumulator (right
value) — computing the truncated quotient `Int.tdiv vl vr` whenever
the divisor is nonzero, with no divide-by-zero guard (execution is
undefined when the divisor is zero); `"print 7/2;"` parses to
`Div(7,2)`, which evaluates to `3`. -/
theorem claim_C4_div_truncating (l r : Expr) (vl vr : Int) (m : Mach)
    (hl : evalExpr l = some vl) (hr : evalExpr r = some vr) :
    CodeGen.gen_expr (Expr.BinOp l Token.Div r) =
      CodeGen.gen_expr l ++ ["    push rax"] ++ CodeGen.gen_expr r ++
        ["    pop rbx", "    mov rdx, 0", "    mov rcx, rax",
         "    mov rax, rbx", "    idiv rcx"] ∧
    (vr ≠ 0 → ∃ m' : Mach, execList (genCode (Expr.BinOp l Token.Div r)) m = some m' ∧
      m'.rax = Int.tdiv vl vr ∧ m'.stack = m.stack) ∧
    (vr = 0 → execList (genCode (Expr.BinOp l Token.Div r)) m = none) ∧
    (parse_program "print 7/2;" =
      .ok { stmts := [Stmt.Print (Expr.BinOp (Expr.Num 7) Token.Div (Expr.Num 2))] } ∧
     evalExpr (Expr.BinOp (Expr.Num 7) Token.Div (Expr.Num 2)) = some 3) := by
  refine ⟨?_, ?_, ?_, rfl, rfl⟩
  · simp [CodeGen.gen_expr]
  · intro hvr
    apply exec_gen_correct
    simp [evalExpr, hl, hr, hvr]
  · intro hvr
    obtain ⟨m1, e1, hrax1, hstk1⟩ := exec_gen_correct l m vl hl
    obtain ⟨m3, e3, hrax3, hstk3⟩ :=
      exec_gen_correct r { m1 with stack := m1.rax :: m1.stack } vr hr
    have hs : m3.stack = vl :: m.stack := by
      rw [hstk3]; simp [hrax1, hstk1]
    rw [genCode, exec_spine l r _ m m1 m3 vl m.stack e1 e3 hs]
    have hz : m3.rax = 0 := by rw [hrax3, hvr]
    simp [execList, execInstr, hz]

theorem claim_C4_witness :
    ∃ m' : Mach, execList (genCode (Expr.BinOp (Expr.Num 7) Token.Div (Expr.Num 2)))
      ⟨0, 0, 0, 0, []⟩ = some m' ∧ m'.rax = Int.tdiv 7 2 ∧ m'.stack = [] :=
  (claim_C4_div_truncating (Expr.Num 7) (Expr.Num 2) 7 2 ⟨0, 0, 0, 0, []⟩ rfl rfl).2.1
    (by decide)

/-- C6: `integer` scans the maximal digit run; when the run's value
fits a 64-bit signed integer it returns exactly that value (no
truncation) advancing past the run, and when it exceeds the range the
conversion aborts fatally. -/
theorem claim_C6_literal_range (input : List Char) (pos : Nat) (c : Char)
    (hc : input[pos]? = some c) (hd : c.isDigit = true) :
    (digitsVal ((input.drop pos).takeWhile Char.isDigit) ≤ maxI64 →
      Lexer.integer ⟨input, pos⟩ =
        .ok ((digitsVal ((input.drop pos).takeWhile Char.isDigit) : Int),
             ⟨input, pos + ((input.drop pos).takeWhile Char.isDigit).length⟩)) ∧
    (maxI64 < digitsVal ((input.drop pos).takeWhile Char.isDigit) →
      Lexer.integer ⟨input, pos⟩ = .error "called Option::unwrap on a None value") := by
  have hscan : scanDigitsAux input pos (input.length - pos) =
      pos + ((input.drop pos).takeWhile Char.isDigit).length :=
    scanDigitsAux_spec input (input.length - pos) pos (le_refl _)
  have hslice : (input.drop pos).take
      (pos + ((input.drop pos).takeWhile Char.isDigit).length - pos) =
      (input.drop pos).takeWhile Char.isDigit := by
    rw [Nat.add_sub_cancel_left]
    exact take_takeWhile_length _ _
  have hne : (input.drop pos).takeWhile Char.isDigit ≠ [] := by
    rw [drop_cons_of_getElem input pos c hc]
    simp [List.takeWhile_cons, hd]
  have hall : ((input.drop pos).takeWhile Char.isDigit).all Char.isDigit = true :=
    all_takeWhile_true _ _
  constructor
  · intro hle
    simp only [Lexer.integer, hscan, hslice, parse_i64]
    rw [if_pos ⟨hne, hall, hle⟩]
  · intro hgt
    simp only [Lexer.integer, hscan, hslice, parse_i64]
    rw [if_neg (by push_neg; intro _ _; omega)]

theorem claim_C6_witness :
    Lexer.integer ⟨"12;".data, 0⟩ = .ok ((12 : Int), ⟨"12;".data, 2⟩) :=
  (claim_C6_literal_range "12;".data 0 '1' rfl rfl).1 (by decide)

/-- C8: once `next_token` has returned the EOF sentinel, every further
call on the resulting lexer state returns EOF again with the state
unchanged — `next_token` is idempotent at end of input. -/
theorem claim_C8_eof_idempotent (l l2 : Lexer)
    (h : l.next_token = .ok (Token.EOF, l2)) :
    l2.next_token = .ok (Token.EOF, l2) := by
  rw [Lexer.next_token] at h
  cases hcur : (l.skip_whitespace).current with
  | some c =>
    simp only [hcur] at h
    by_cases hdig : c.isDigit
    · rw [if_pos hdig] at h
      cases hip : (l.skip_whitespace).integer with
      | error e => rw [hip] at h; simp [Except.map] at h
      | ok p => rw [hip] at h; simp [Except.map] at h
    · rw [if_neg hdig] at h
      split_ifs at h <;> simp at h
  | none =>
    simp only [hcur] at h
    simp only [Except.ok.injEq, Prod.mk.injEq, true_and] at h
    subst h
    have hge : (l.skip_whitespace).input.length ≤ (l.skip_whitespace).pos := by
      by_contra hc2
      push_neg at hc2
      simp [Lexer.current, List.getElem?_eq_getElem hc2] at hcur
    have hskip : (l.skip_whitespace).skip_whitespace = l.skip_whitespace := by
      rw [Lexer.skip_whitespace]
      have h0 : (l.skip_whitespace).input.length - (l.skip_whitespace).pos = 0 := by omega
      rw [h0]
      rfl
    rw [Lexer.next_token, hskip, hcur]

theorem claim_C8_witness : Lexer.next_token ⟨[' '], 1⟩ = .ok (Token.EOF, ⟨[' '], 1⟩) :=
  claim_C8_eof_idempotent (Lexer.new " ") ⟨[' '], 1⟩ rfl

/-- C9: when the character at the cursor (after whitespace skipping)
is `p`, `next_token` does a fixed five-character comparison against
`print`: on a match it consumes exactly five characters and yields the
`Print` token, otherwise it fails fatally with "Unexpected token". -/
theorem claim_C9_print_keyword (l : Lexer)
    (h : (l.skip_whitespace).current = some 'p') :
    l.next_token =
      (if ((l.skip_whitespace).input.drop (l.skip_whitespace).pos).take 5 =
          ['p', 'r', 'i', 'n', 't']
       then .ok (Token.Print,
              { l.skip_whitespace with pos := (l.skip_whitespace).pos + 5 })
       else .error "Unexpected token") := by
  rw [Lexer.next_token]
  simp only [h]
  rw [if_neg (by decide), if_neg (by decide), if_neg (by decide), if_neg (by decide),
      if_neg (by decide), if_neg (by decide), if_neg (by decide), if_neg (by decide)]
  simp

theorem claim_C9_witness :
    Lexer.next_token (Lexer.new "print") = .ok (Token.Print, ⟨"print".data, 5⟩) ∧
    Lexer.next_token (Lexer.new "proust") = .error "Unexpected token" :=
  ⟨(claim_C9_print_keyword (Lexer.new "print") rfl).trans rfl,
   (claim_C9_print_keyword (Lexer.new "proust") rfl).trans rfl⟩

/-- C10: for every expression tree the emitted text is stack-balanced:
exactly one `push rax` and one `pop rbx` line per `BinOp` node, the
running stack depth never goes negative and ends at zero, and (through
the instruction-level reading of the same lines) executing the
sequence leaves the expression's value in the accumulator with the
stack as it started. -/
theorem claim_C10_stack_balanced (e : Expr) :
    (CodeGen.gen_expr e).count "    push rax" = e.numBinOps ∧
    (CodeGen.gen_expr e).count "    pop rbx" = e.numBinOps ∧
    stackDepth (CodeGen.gen_expr e) 0 = some 0 ∧
    CodeGen.gen_expr e = (genCode e).map instrLine ∧
    (∀ (m : Mach) (v : Int), evalExpr e = some v →
      ∃ m' : Mach, execList (genCode e) m = some m' ∧ m'.rax = v ∧ m'.stack = m.stack) :=
  ⟨count_gen_expr_push e, count_gen_expr_pop e, stackDepth_gen_expr e 0,
   gen_expr_eq_map e, fun m v h => exec_gen_correct e m v h⟩

theorem claim_C10_witness :
    (CodeGen.gen_expr (Expr.BinOp (Expr.Num 1) Token.Plus (Expr.Num 2))).count
      "    push rax" = 1 ∧
    (CodeGen.gen_expr (Expr.BinOp (Expr.Num 1) Token.Plus (Expr.Num 2))).count
      "    pop rbx" = 1 ∧
    stackDepth (CodeGen.gen_expr (Expr.BinOp (Expr.Num 1) Token.Plus (Expr.Num 2))) 0 =
      some 0 ∧
    ∃ m' : Mach, execList (genCode (Expr.BinOp (Expr.Num 1) Token.Plus (Expr.Num 2)))
      ⟨0, 0, 0, 0, []⟩ = some m' ∧ m'.rax = 3 ∧ m'.stack = [] := by
  have h := claim_C10_stack_balanced (Expr.BinOp (Expr.Num 1) Token.Plus (Expr.Num 2))
  exact ⟨h.1, h.2.1, h.2.2.1, h.2.2.2.2 ⟨0, 0, 0, 0, []⟩ 3 rfl⟩
